import Mathlib

/-!
Verification of the quantum phase estimation notebook
(`src/Algorithms/phase_estimation.ipynb`).

The notebook builds a random 2x2 unitary with prescribed eigenphases
(`create_unitary`), runs the textbook QPE circuit on a PennyLane
state-vector simulator (`qpe_circuit` / `circuit`), and converts
Hamiltonian eigenvalues into phases in `[0,1)` with a single-increment
wrap.  We embed these pieces exactly, over `ℝ` and `ℂ`.

Conventions of the embedding:
* Estimation wires are `Fin m` (the notebook uses PennyLane wire labels
  `1..m`; wire `0` is the 1-qubit system register, here the `Fin 2`
  index of `QState`).
* PennyLane reads the estimation register big-endian: the first listed
  wire is the most significant bit (`valBE`), and
  `qml.ControlledSequence` applies decreasing powers, the `k`-th listed
  control wire controlling `U^(2^(m-1-k))` (its documented
  decomposition).  `qml.QFT` is the standard DFT matrix
  `(1/√N)·exp(2πi·jk/N)` in that big-endian basis.
-/

open Complex
open scoped Matrix
open scoped Real ComplexConjugate BigOperators

noncomputable section

/-! ### Phase wrapping (`from_hamiltonian`)

Source cell:
```
phases = eigs * duration / (2 * np.pi)
for i in range(2):
    if phases[i] < 0.:
        phases[i] = 1 + phases[i]
```
-/

/-- Compute `eigs * duration / (2π)`, then add `1` when the value is
negative: the per-eigenvalue body of the wrap loop. -/
def wrapPhase (lam T : ℝ) : ℝ :=
  let p := lam * T / (2 * Real.pi)
  if p < 0 then 1 + p else p

/-! ### The random unitary (`create_unitary`)

Source cell:
```
def create_random_vec(dim):
    vec = np.random.rand(dim) + 1j * np.random.rand(dim)
    return (vec / np.linalg.norm(vec))[:, None]

def proj(vec):
    return vec @ np.conj(vec).T

def create_unitary(phases):
    eigvec_1 = create_random_vec(2)
    eigvec_2 = (np.eye(2) - proj(eigvec_1)) @ create_random_vec(2)
    eigvec_2 /= np.linalg.norm(eigvec_2)
    unitary = np.exp(2*np.pi*1j*phases[0]) * proj(eigvec_1) \
            + np.exp(2*np.pi*1j*phases[1]) * proj(eigvec_2)
    assert np.allclose(np.eye(2), np.conj(unitary.T) @ unitary)
    return unitary
```
The random draws are passed in as explicit vectors `r1 r2`. -/

/-- Euclidean norm of a complex 2-vector, `np.linalg.norm`. -/
def cnorm (v : Fin 2 → ℂ) : ℝ :=
  Real.sqrt (∑ i, Complex.normSq (v i))

/-- Normalisation `vec / np.linalg.norm(vec)` (the body of
`create_random_vec` after the raw draw `v`). -/
def normalizeVec (v : Fin 2 → ℂ) : Fin 2 → ℂ :=
  fun i => v i / (cnorm v : ℝ)

/-- The function `proj`: the outer product of `v` with itself. -/
def projMat (v : Fin 2 → ℂ) : Matrix (Fin 2) (Fin 2) ℂ :=
  Matrix.of fun i j => v i * conj (v j)

/-- The second eigenvector before renormalisation:
`(np.eye(2) - proj(eigvec_1)) @ create_random_vec(2)`. -/
def projectedVec (r1 r2 : Fin 2 → ℂ) : Fin 2 → ℂ :=
  (1 - projMat (normalizeVec r1)).mulVec (normalizeVec r2)

/-- The function `create_unitary`, with the two raw random draws
`r1 r2` made explicit. -/
def create_unitary (a b : ℝ) (r1 r2 : Fin 2 → ℂ) : Matrix (Fin 2) (Fin 2) ℂ :=
  let v1 := normalizeVec r1
  let v2 := normalizeVec (projectedVec r1 r2)
  Complex.exp (2 * Real.pi * I * a) • projMat v1
    + Complex.exp (2 * Real.pi * I * b) • projMat v2

/-- The conjugate-linear dot product `⟨u, v⟩ = Σ conj(u i) * v i`. -/
def dotc (u v : Fin 2 → ℂ) : ℂ :=
  ∑ i, conj (u i) * v i

end

/-! ### Orthonormality of the constructed eigenbasis -/

theorem dotc_self (v : Fin 2 → ℂ) :
    dotc v v = ((∑ i, Complex.normSq (v i) : ℝ) : ℂ) := by
  simp only [dotc, Complex.ofReal_sum]
  refine Finset.sum_congr rfl fun i _ => ?_
  rw [mul_comm, Complex.mul_conj]

theorem dotc_comm (u v : Fin 2 → ℂ) : dotc u v = conj (dotc v u) := by
  simp only [dotc, map_sum, map_mul, RingHom.id_apply, Complex.conj_conj]
  exact Finset.sum_congr rfl fun i _ => (mul_comm _ _)

theorem sum_normSq_pos_of_ne_zero {v : Fin 2 → ℂ} (hv : v ≠ 0) :
    0 < ∑ i, Complex.normSq (v i) := by
  obtain ⟨i, hi⟩ : ∃ i, v i ≠ 0 := by
    by_contra h
    push_neg at h
    exact hv (funext fun i => h i)
  exact Finset.sum_pos' (fun j _ => Complex.normSq_nonneg _)
    ⟨i, Finset.mem_univ i, Complex.normSq_pos.mpr hi⟩

theorem sum_normSq_normalizeVec {v : Fin 2 → ℂ} (hv : v ≠ 0) :
    ∑ i, Complex.normSq (normalizeVec v i) = 1 := by
  have hS := sum_normSq_pos_of_ne_zero hv
  have hsq : (cnorm v) * (cnorm v) = ∑ i, Complex.normSq (v i) :=
    Real.mul_self_sqrt (le_of_lt hS)
  have hc : Complex.normSq ((cnorm v : ℝ) : ℂ) = ∑ i, Complex.normSq (v i) := by
    rw [Complex.normSq_ofReal, hsq]
  simp only [normalizeVec, Complex.normSq_div, hc]
  rw [← Finset.sum_div, div_self (ne_of_gt hS)]

theorem dotc_self_normalizeVec {v : Fin 2 → ℂ} (hv : v ≠ 0) :
    dotc (normalizeVec v) (normalizeVec v) = 1 := by
  rw [dotc_self, sum_normSq_normalizeVec hv, Complex.ofReal_one]

theorem dotc_normalizeVec_right (u v : Fin 2 → ℂ) :
    dotc u (normalizeVec v) = dotc u v / (cnorm v : ℝ) := by
  simp only [dotc, normalizeVec, Finset.sum_div]
  exact Finset.sum_congr rfl fun i _ => (mul_div_assoc _ _ _).symm

theorem projMat_mulVec (v u : Fin 2 → ℂ) :
    (projMat v).mulVec u = (dotc v u) • v := by
  funext i
  simp only [projMat, Matrix.mulVec, Matrix.dotProduct, Matrix.of_apply, dotc,
    Pi.smul_apply, smul_eq_mul, Finset.sum_mul]
  exact Finset.sum_congr rfl fun j _ => by ring

/-- The projected second vector is orthogonal to the first unit vector. -/
theorem dotc_projectedVec {r1 : Fin 2 → ℂ} (r2 : Fin 2 → ℂ) (h1 : r1 ≠ 0) :
    dotc (normalizeVec r1) (projectedVec r1 r2) = 0 := by
  set v1 := normalizeVec r1
  set u := normalizeVec r2
  have hmv : (1 - projMat v1).mulVec u = u - (dotc v1 u) • v1 := by
    rw [Matrix.sub_mulVec, Matrix.one_mulVec, projMat_mulVec]
  simp only [projectedVec, hmv]
  have hexp : dotc v1 (u - (dotc v1 u) • v1)
      = dotc v1 u - (dotc v1 u) * dotc v1 v1 := by
    simp only [dotc, Pi.sub_apply, Pi.smul_apply, smul_eq_mul, mul_sub,
      Finset.sum_sub_distrib, Finset.mul_sum]
    congr 1
    exact Finset.sum_congr rfl fun i _ => by ring
  rw [hexp, dotc_self_normalizeVec h1, mul_one, sub_self]

theorem dotc_eigvecs {r1 r2 : Fin 2 → ℂ} (h1 : r1 ≠ 0) :
    dotc (normalizeVec r1) (normalizeVec (projectedVec r1 r2)) = 0 := by
  rw [dotc_normalizeVec_right, dotc_projectedVec r2 h1, zero_div]

theorem projMat_conjTranspose (v : Fin 2 → ℂ) : (projMat v)ᴴ = projMat v := by
  ext i j
  simp only [projMat, Matrix.conjTranspose_apply, Matrix.of_apply,
    RCLike.star_def, map_mul, Complex.conj_conj]
  ring

theorem projMat_mul_projMat (u v : Fin 2 → ℂ) :
    projMat u * projMat v
      = Matrix.of fun i j => dotc u v * (u i * conj (v j)) := by
  ext i j
  simp only [Matrix.mul_apply, projMat, Matrix.of_apply, dotc, Finset.sum_mul]
  exact Finset.sum_congr rfl fun k _ => by ring

theorem projMat_idem {v : Fin 2 → ℂ} (hv : dotc v v = 1) :
    projMat v * projMat v = projMat v := by
  rw [projMat_mul_projMat, hv]
  ext i j
  simp [projMat]

theorem projMat_orth {u v : Fin 2 → ℂ} (huv : dotc u v = 0) :
    projMat u * projMat v = 0 := by
  rw [projMat_mul_projMat, huv]
  ext i j
  simp

/-- Two orthonormal vectors of `ℂ²` give a resolution of the identity. -/
theorem projMat_add_projMat {v1 v2 : Fin 2 → ℂ}
    (h1 : dotc v1 v1 = 1) (h2 : dotc v2 v2 = 1) (h12 : dotc v1 v2 = 0) :
    projMat v1 + projMat v2 = 1 := by
  set c : Fin 2 → (Fin 2 → ℂ) := ![v1, v2] with hc
  set M : Matrix (Fin 2) (Fin 2) ℂ := Matrix.of fun i j => c j i with hM
  have h21 : dotc v2 v1 = 0 := by rw [dotc_comm, h12, map_zero]
  have hMM : Mᴴ * M = 1 := by
    ext a b
    have : (Mᴴ * M) a b = dotc (c a) (c b) := by
      simp only [Matrix.mul_apply, Matrix.conjTranspose_apply, hM,
        Matrix.of_apply, dotc, RCLike.star_def]
    rw [this]
    fin_cases a <;> fin_cases b <;>
      simp [hc, h1, h2, h12, h21, Matrix.one_apply]
  have hMM' : M * Mᴴ = 1 := Matrix.mul_eq_one_comm.mp hMM
  have hout : M * Mᴴ = projMat v1 + projMat v2 := by
    ext i j
    simp only [Matrix.mul_apply, Matrix.conjTranspose_apply, hM, Matrix.of_apply,
      Matrix.add_apply, projMat, Fin.sum_univ_two, RCLike.star_def]
    simp [hc]
  rw [← hout, hMM']

theorem exp_phase_conj_mul (a : ℝ) :
    conj (Complex.exp (2 * Real.pi * I * a)) * Complex.exp (2 * Real.pi * I * a) = 1 := by
  rw [← Complex.exp_conj, ← Complex.exp_add]
  have : conj (2 * (Real.pi : ℂ) * I * a) + 2 * Real.pi * I * a = 0 := by
    simp only [map_mul, Complex.conj_I, Complex.conj_ofReal, map_ofNat]
    ring
  rw [this, Complex.exp_zero]

/-- Core of C1: in exact arithmetic `create_unitary` returns a unitary. -/
theorem create_unitary_mul_self {a b : ℝ} {r1 r2 : Fin 2 → ℂ}
    (h1 : r1 ≠ 0) (hw : projectedVec r1 r2 ≠ 0) :
    (create_unitary a b r1 r2)ᴴ * create_unitary a b r1 r2 = 1 := by
  set v1 := normalizeVec r1 with hv1
  set v2 := normalizeVec (projectedVec r1 r2) with hv2
  set α := Complex.exp (2 * Real.pi * I * a) with hα
  set β := Complex.exp (2 * Real.pi * I * b) with hβ
  have hu1 : dotc v1 v1 = 1 := dotc_self_normalizeVec h1
  have hu2 : dotc v2 v2 = 1 := dotc_self_normalizeVec hw
  have h12 : dotc v1 v2 = 0 := dotc_eigvecs h1
  have h21 : dotc v2 v1 = 0 := by rw [dotc_comm, h12, map_zero]
  have hU : create_unitary a b r1 r2 = α • projMat v1 + β • projMat v2 := rfl
  rw [hU]
  rw [Matrix.conjTranspose_add, Matrix.conjTranspose_smul,
    Matrix.conjTranspose_smul, projMat_conjTranspose, projMat_conjTranspose]
  rw [Matrix.add_mul, Matrix.mul_add, Matrix.mul_add]
  rw [Matrix.smul_mul, Matrix.smul_mul, Matrix.smul_mul, Matrix.smul_mul,
    Matrix.mul_smul, Matrix.mul_smul, Matrix.mul_smul, Matrix.mul_smul]
  rw [projMat_idem hu1, projMat_idem hu2, projMat_orth h12, projMat_orth h21]
  rw [smul_smul, smul_smul, smul_smul, smul_smul]
  rw [hα, hβ]
  simp only [RCLike.star_def]
  rw [exp_phase_conj_mul a, exp_phase_conj_mul b]
  simp only [smul_zero, add_zero, zero_add, one_smul]
  exact projMat_add_projMat hu1 hu2 h12

/-- **C1.** For phases `a, b ∈ [0,1)` (not necessarily distinct) and any
random draws whose vectors are nonzero and whose projected second vector
is nonzero, `create_unitary` returns `U` with `Uᴴ * U = 1` in exact
arithmetic, so the unitarity assertion in the source never fails. -/
theorem create_unitary_unitary (a b : ℝ) (r1 r2 : Fin 2 → ℂ)
    (ha : a ∈ Set.Ico (0 : ℝ) 1) (hb : b ∈ Set.Ico (0 : ℝ) 1)
    (h1 : r1 ≠ 0) (h2 : r2 ≠ 0) (hw : projectedVec r1 r2 ≠ 0) :
    (create_unitary a b r1 r2)ᴴ * create_unitary a b r1 r2 = 1 :=
  create_unitary_mul_self h1 hw

/-- Concrete draw `r1 = (1,0)` is nonzero. -/
theorem concrete_r1_ne_zero : (![1, 0] : Fin 2 → ℂ) ≠ 0 := by
  intro h
  have h0 := congrFun h 0
  simp at h0

/-- Concrete draw `r2 = (1,1)` is nonzero. -/
theorem concrete_r2_ne_zero : (![1, 1] : Fin 2 → ℂ) ≠ 0 := by
  intro h
  have h0 := congrFun h 0
  simp at h0

theorem concrete_normalize_r1 : normalizeVec ![1, 0] = ![1, 0] := by
  have hcn : cnorm ![1, 0] = 1 := by
    simp [cnorm, Fin.sum_univ_two]
  funext i
  fin_cases i <;> simp [normalizeVec, hcn]

/-- The projected second vector for the draws `(1,0)`, `(1,1)`. -/
theorem concrete_projected_ne_zero : projectedVec ![1, 0] ![1, 1] ≠ 0 := by
  have hs2 : (0 : ℝ) < Real.sqrt 2 := Real.sqrt_pos.mpr (by norm_num)
  have hval : projectedVec ![1, 0] ![1, 1] 1 = 1 / (Real.sqrt 2 : ℝ) := by
    simp [projectedVec, concrete_normalize_r1, Matrix.mulVec, Matrix.dotProduct,
      Fin.sum_univ_two, projMat, normalizeVec, cnorm, Matrix.one_apply,
      Matrix.sub_apply]
    norm_num
  intro h
  have h1 := congrFun h 1
  rw [hval] at h1
  simp only [Pi.zero_apply, div_eq_zero_iff, one_ne_zero, false_or] at h1
  exact (ne_of_gt hs2) (Complex.ofReal_eq_zero.mp h1)

/-- Witness for `create_unitary_unitary` at the notebook phases
`(0.25, 0.875)` and draws `(1,0)`, `(1,1)`. -/
theorem create_unitary_unitary_witness :
    ((1 / 4 : ℝ) ∈ Set.Ico (0 : ℝ) 1) ∧ ((7 / 8 : ℝ) ∈ Set.Ico (0 : ℝ) 1) ∧
      (![1, 0] : Fin 2 → ℂ) ≠ 0 ∧ (![1, 1] : Fin 2 → ℂ) ≠ 0 ∧
      projectedVec ![1, 0] ![1, 1] ≠ 0 ∧
      (create_unitary (1 / 4) (7 / 8) ![1, 0] ![1, 1])ᴴ *
          create_unitary (1 / 4) (7 / 8) ![1, 0] ![1, 1] = 1 :=
  ⟨by norm_num, by norm_num, concrete_r1_ne_zero, concrete_r2_ne_zero,
    concrete_projected_ne_zero,
    create_unitary_unitary (1 / 4) (7 / 8) ![1, 0] ![1, 1]
      (by norm_num) (by norm_num) concrete_r1_ne_zero concrete_r2_ne_zero
      concrete_projected_ne_zero⟩

/-- **C8.** The second eigenvector (projection of the second draw onto
the orthogonal complement of the first, renormalised) is orthogonal to
the first and has unit norm, and the two projectors resolve the
identity: the eigenvectors form an orthonormal basis of `ℂ²`. -/
theorem eigvecs_orthonormal (r1 r2 : Fin 2 → ℂ)
    (h1 : r1 ≠ 0) (h2 : r2 ≠ 0) (hw : projectedVec r1 r2 ≠ 0) :
    dotc (normalizeVec r1) (normalizeVec (projectedVec r1 r2)) = 0 ∧
      ∑ i, Complex.normSq (normalizeVec (projectedVec r1 r2) i) = 1 ∧
      projMat (normalizeVec r1) + projMat (normalizeVec (projectedVec r1 r2)) = 1 :=
  ⟨dotc_eigvecs h1, sum_normSq_normalizeVec hw,
    projMat_add_projMat (dotc_self_normalizeVec h1) (dotc_self_normalizeVec hw)
      (dotc_eigvecs h1)⟩

/-- Witness for `eigvecs_orthonormal` at the draws `(1,0)`, `(1,1)`. -/
theorem eigvecs_orthonormal_witness :
    (![1, 0] : Fin 2 → ℂ) ≠ 0 ∧ (![1, 1] : Fin 2 → ℂ) ≠ 0 ∧
      projectedVec ![1, 0] ![1, 1] ≠ 0 ∧
      (dotc (normalizeVec ![1, 0]) (normalizeVec (projectedVec ![1, 0] ![1, 1])) = 0 ∧
        ∑ i, Complex.normSq (normalizeVec (projectedVec ![1, 0] ![1, 1]) i) = 1 ∧
        projMat (normalizeVec ![1, 0])
            + projMat (normalizeVec (projectedVec ![1, 0] ![1, 1])) = 1) :=
  ⟨concrete_r1_ne_zero, concrete_r2_ne_zero, concrete_projected_ne_zero,
    eigvecs_orthonormal ![1, 0] ![1, 1] concrete_r1_ne_zero concrete_r2_ne_zero
      concrete_projected_ne_zero⟩

/-! ### The Hamiltonian scenario

Source cells:
```
hamiltonian = np.random.uniform(-1, 1, (2, 2)) + 1j * np.random.uniform(-1, 1, (2, 2))
hamiltonian = 0.5 * (hamiltonian + np.conj(hamiltonian.T))
eigs = np.real(np.linalg.eigvals(hamiltonian))

duration = 1.
unitary = expm(hamiltonian * 1j * duration)
```
-/

noncomputable section

/-- The matrix `0.5 * (hamiltonian + np.conj(hamiltonian.T))`, for an
arbitrary raw random matrix `A`. -/
def hermitianize (A : Matrix (Fin 2) (Fin 2) ℂ) : Matrix (Fin 2) (Fin 2) ℂ :=
  (1 / 2 : ℂ) • (A + Aᴴ)

/-- The evolution `expm(hamiltonian * 1j * duration)`, i.e.
`exp(i·T·H)`. -/
def evolutionU (A : Matrix (Fin 2) (Fin 2) ℂ) (T : ℝ) : Matrix (Fin 2) (Fin 2) ℂ :=
  NormedSpace.exp ℂ ((Complex.I * T) • hermitianize A)

end

theorem dotc_mulVec_flip (M : Matrix (Fin 2) (Fin 2) ℂ) (u v : Fin 2 → ℂ) :
    dotc u (M.mulVec v) = dotc (Mᴴ.mulVec u) v := by
  simp only [dotc, Matrix.mulVec, Matrix.dotProduct, Matrix.conjTranspose_apply,
    Finset.mul_sum, Finset.sum_mul, map_sum, map_mul, RCLike.star_def,
    Complex.conj_conj]
  rw [Finset.sum_comm]
  exact Finset.sum_congr rfl fun i _ => Finset.sum_congr rfl fun j _ => by ring

theorem dotc_smul_right (c : ℂ) (u v : Fin 2 → ℂ) :
    dotc u (c • v) = c * dotc u v := by
  simp only [dotc, Pi.smul_apply, smul_eq_mul, Finset.mul_sum]
  exact Finset.sum_congr rfl fun i _ => by ring

theorem hermitianize_isHermitian (A : Matrix (Fin 2) (Fin 2) ℂ) :
    (hermitianize A)ᴴ = hermitianize A := by
  simp only [hermitianize, Matrix.conjTranspose_smul, Matrix.conjTranspose_add,
    Matrix.conjTranspose_conjTranspose]
  rw [add_comm]
  congr 1
  simp

/-- Eigenvalues of the Hermitian part are real. -/
theorem hermitianize_eigenvalue_real {A : Matrix (Fin 2) (Fin 2) ℂ}
    {μ : ℂ} {v : Fin 2 → ℂ} (hv : v ≠ 0)
    (hev : (hermitianize A).mulVec v = μ • v) : μ.im = 0 := by
  set H := hermitianize A with hH
  set c : ℂ := dotc v v with hc
  have hcreal : conj c = c := by
    rw [hc, dotc_self, Complex.conj_ofReal]
  have hcne : c ≠ 0 := by
    rw [hc, dotc_self]
    intro h
    have := Complex.ofReal_eq_zero.mp h
    exact (ne_of_gt (sum_normSq_pos_of_ne_zero hv)) this
  have hq : dotc v (H.mulVec v) = μ * c := by
    rw [hev, dotc_smul_right, hc]
  have hqconj : conj (dotc v (H.mulVec v)) = dotc v (H.mulVec v) := by
    conv_lhs => rw [← dotc_comm]
    rw [dotc_mulVec_flip, hermitianize_isHermitian]
  rw [hq, map_mul, hcreal] at hqconj
  have hμ : conj μ = μ := mul_right_cancel₀ hcne hqconj
  have := Complex.conj_eq_iff_im.mp hμ
  exact this

/-- The time-evolution operator of a hermitianized matrix is unitary. -/
theorem evolutionU_unitary (A : Matrix (Fin 2) (Fin 2) ℂ) (T : ℝ) :
    (evolutionU A T)ᴴ * evolutionU A T = 1 := by
  set H := hermitianize A with hH
  set z : ℂ := Complex.I * T with hz
  have hconj : ((z • H)ᴴ) = (-z) • H := by
    rw [Matrix.conjTranspose_smul, hermitianize_isHermitian]
    congr 1
    rw [hz]
    simp [Complex.ext_iff]
  have hcomm : Commute ((-z) • H) (z • H) :=
    ((Commute.refl H).smul_left (-z)).smul_right z
  rw [evolutionU, ← hH, ← hz, ← Matrix.exp_conjTranspose, hconj,
    ← Matrix.exp_add_of_commute ℂ _ _ hcomm]
  have : (-z) • H + z • H = 0 := by
    rw [← add_smul]
    simp
  rw [this, NormedSpace.exp_zero]

/-- **C10.** The matrix `H = 0.5·(A + Aᴴ)` built in the Hamiltonian
scenario is Hermitian, its eigenvalues are real (taking the real part
discards nothing), and `exp(i·H·T)` is unitary for every real `T`. -/
theorem hermitianize_hermitian_real_eigs_unitary
    (A : Matrix (Fin 2) (Fin 2) ℂ) (T : ℝ) (μ : ℂ) (v : Fin 2 → ℂ)
    (hv : v ≠ 0) (hev : (hermitianize A).mulVec v = μ • v) :
    (hermitianize A)ᴴ = hermitianize A ∧ μ.im = 0 ∧
      (evolutionU A T)ᴴ * evolutionU A T = 1 :=
  ⟨hermitianize_isHermitian A, hermitianize_eigenvalue_real hv hev,
    evolutionU_unitary A T⟩

theorem concrete_hermitianize_one_mulVec :
    (hermitianize 1).mulVec ![1, 0] = (1 : ℂ) • ![1, 0] := by
  funext i
  simp only [hermitianize, Matrix.conjTranspose_one, Matrix.smul_mulVec_assoc,
    Matrix.add_mulVec, Matrix.one_mulVec, Pi.smul_apply, Pi.add_apply,
    smul_eq_mul, one_mul]
  ring

/-- Witness for `hermitianize_hermitian_real_eigs_unitary` at
`A = 1`, `T = 1`, `μ = 1`, `v = (1,0)`. -/
theorem hermitianize_hermitian_real_eigs_unitary_witness :
    (![1, 0] : Fin 2 → ℂ) ≠ 0 ∧
      (hermitianize 1).mulVec ![1, 0] = (1 : ℂ) • ![1, 0] ∧
      ((hermitianize 1)ᴴ = hermitianize 1 ∧ (1 : ℂ).im = 0 ∧
        (evolutionU 1 1)ᴴ * evolutionU 1 1 = 1) :=
  ⟨concrete_r1_ne_zero, concrete_hermitianize_one_mulVec,
    hermitianize_hermitian_real_eigs_unitary 1 1 1 ![1, 0]
      concrete_r1_ne_zero concrete_hermitianize_one_mulVec⟩

/-! ### The quantum Fourier transform matrix

`qml.QFT(wires)` on `m` wires is the standard discrete Fourier
transform on the `2^m` big-endian basis states; the source applies its
adjoint, `qml.adjoint(qml.QFT)(wires=estimation_wires)`. -/

noncomputable section

/-- The matrix of `qml.QFT` on `N` basis states:
entries `(1/√N)·exp(2πi·jk/N)` (big-endian wire order). -/
def qftMat (N : ℕ) : Matrix (Fin N) (Fin N) ℂ :=
  Matrix.of fun j k =>
    (1 / Real.sqrt N : ℝ) * Complex.exp (2 * Real.pi * I * j * k / N)

/-- Modelled from the spec: the explicit inverse-DFT matrix, the
"standard size-2^m unitary whose matrix entries are
`(1/√2^m)·e^(−2πi·jk/2^m)`". -/
def invDftMat (N : ℕ) : Matrix (Fin N) (Fin N) ℂ :=
  Matrix.of fun j k =>
    (1 / Real.sqrt N : ℝ) * Complex.exp (-(2 * Real.pi * I * j * k) / N)

end

theorem qftMat_conjTranspose (N : ℕ) : (qftMat N)ᴴ = invDftMat N := by
  ext j k
  simp only [qftMat, invDftMat, Matrix.conjTranspose_apply, Matrix.of_apply,
    RCLike.star_def, map_mul, Complex.conj_ofReal, ← Complex.exp_conj]
  congr 2
  simp only [map_div₀, map_mul, Complex.conj_I, Complex.conj_ofReal,
    map_ofNat, map_natCast]
  ring

/-- **C7.** The final QPE stage, the adjoint of the library QFT on the
`m` estimation wires, is extensionally equal to the explicit
inverse-DFT matrix of the spec. -/
theorem qft_adjoint_eq_invDft (m : ℕ) : (qftMat (2 ^ m))ᴴ = invDftMat (2 ^ m) :=
  qftMat_conjTranspose (2 ^ m)

/-- Geometric sum of the `N`-th roots of unity: it is `N` when `N ∣ d`
and `0` otherwise. -/
theorem sum_exp_unit_root (N : ℕ) (hN : 0 < N) (d : ℤ) :
    ∑ x ∈ Finset.range N, Complex.exp (2 * Real.pi * I * d * x / N)
      = if (N : ℤ) ∣ d then (N : ℂ) else 0 := by
  have hNc : (N : ℂ) ≠ 0 := Nat.cast_ne_zero.mpr (Nat.pos_iff_ne_zero.mp hN)
  set ζ : ℂ := Complex.exp (2 * Real.pi * I * d / N) with hζ
  have hpow : ∀ x : ℕ, Complex.exp (2 * Real.pi * I * d * x / N) = ζ ^ x := by
    intro x
    rw [hζ, ← Complex.exp_nat_mul]
    congr 1
    field_simp
    ring
  rw [Finset.sum_congr rfl fun x _ => hpow x]
  by_cases hdvd : (N : ℤ) ∣ d
  · obtain ⟨c, hc⟩ := hdvd
    have hζ1 : ζ = 1 := by
      have harg : 2 * (Real.pi : ℂ) * I * d / N = c * (2 * Real.pi * I) := by
        rw [hc]
        push_cast
        field_simp
        ring
      rw [hζ, harg, Complex.exp_int_mul_two_pi_mul_I]
    rw [if_pos ⟨c, hc⟩]
    simp [hζ1, Finset.sum_const, Finset.card_range]
  · have hζne : ζ ≠ 1 := by
      intro h1
      rw [hζ] at h1
      obtain ⟨n, hn⟩ := Complex.exp_eq_one_iff.mp h1
      apply hdvd
      have h2 : 2 * (Real.pi : ℂ) * I * d = n * (2 * Real.pi * I) * N := by
        calc 2 * (Real.pi : ℂ) * I * d
            = (2 * Real.pi * I * d / N) * N := by field_simp
          _ = (n * (2 * Real.pi * I)) * N := by rw [hn]
      have h3 : (2 * (Real.pi : ℂ) * I) * d = (2 * Real.pi * I) * (n * N) := by
        rw [h2]; ring
      have hd : (d : ℂ) = n * N :=
        mul_left_cancel₀ Complex.two_pi_I_ne_zero h3
      have hd2 : d = N * n := by
        have : (d : ℂ) = ((N * n : ℤ) : ℂ) := by push_cast; rw [hd]; ring
        exact_mod_cast this
      exact ⟨n, hd2⟩
    have hζN : ζ ^ N = 1 := by
      rw [hζ, ← Complex.exp_nat_mul]
      have harg : (N : ℂ) * (2 * Real.pi * I * d / N) = d * (2 * Real.pi * I) := by
        field_simp
        ring
      rw [harg, Complex.exp_int_mul_two_pi_mul_I]
    rw [geom_sum_eq hζne, hζN, if_neg hdvd]
    simp

/-! ### Basic facts about `wrapPhase` -/

/-- **C4.** For `|λ·T| < 2π` the computed phase is wrapped into `[0,1)`
by at most one increment and equals the fractional part of
`λ·T/(2π)`, i.e. `(λ·T mod 2π)/(2π)`. -/
theorem wrapPhase_mem_Ico_fract (lam T : ℝ) (h : |lam * T| < 2 * Real.pi) :
    wrapPhase lam T ∈ Set.Ico (0 : ℝ) 1 ∧
      wrapPhase lam T = Int.fract (lam * T / (2 * Real.pi)) := by
  have h2π : (0 : ℝ) < 2 * Real.pi := by positivity
  set p := lam * T / (2 * Real.pi) with hp
  have hlt : p < 1 := by
    rw [hp, div_lt_one h2π]
    exact lt_of_le_of_lt (le_abs_self _) h
  have hgt : -1 < p := by
    rw [hp, lt_div_iff₀ h2π]
    nlinarith [neg_abs_le (lam * T)]
  by_cases hneg : p < 0
  · have hfloor : ⌊p⌋ = -1 := by
      apply Int.floor_eq_iff.mpr
      constructor <;> push_cast <;> [linarith; linarith]
    constructor
    · simp only [wrapPhase, ← hp, if_pos hneg]
      constructor <;> [linarith; linarith]
    · simp only [wrapPhase, ← hp, if_pos hneg, Int.fract, hfloor]
      push_cast; ring
  · have hfloor : ⌊p⌋ = 0 := by
      apply Int.floor_eq_iff.mpr
      constructor <;> push_cast <;> [linarith; linarith]
    constructor
    · simp only [wrapPhase, ← hp, if_neg hneg]
      constructor <;> [linarith; linarith]
    · simp only [wrapPhase, ← hp, if_neg hneg, Int.fract, hfloor]
      push_cast; ring

/-- Witness for `wrapPhase_mem_Ico_fract` at `λ = -1`, `T = 1`. -/
theorem wrapPhase_mem_Ico_fract_witness :
    |(-1 : ℝ) * 1| < 2 * Real.pi ∧
      (wrapPhase (-1) 1 ∈ Set.Ico (0 : ℝ) 1 ∧
        wrapPhase (-1) 1 = Int.fract ((-1 : ℝ) * 1 / (2 * Real.pi))) := by
  have h : |(-1 : ℝ) * 1| < 2 * Real.pi := by
    rw [show (-1 : ℝ) * 1 = -1 by ring, abs_neg, abs_one]
    nlinarith [Real.pi_gt_three]
  exact ⟨h, wrapPhase_mem_Ico_fract (-1) 1 h⟩

/-- **C5.** There are `λ`, `T` with `|λ·T| ≥ 2π` for which the
single-increment wrap leaves the result outside `[0,1)`: the code has
no modulo or assertion guarding this boundary. -/
theorem wrapPhase_overflow :
    ∃ lam T : ℝ, 2 * Real.pi ≤ |lam * T| ∧
      wrapPhase lam T ∉ Set.Ico (0 : ℝ) 1 := by
  refine ⟨4, 2, ?_, ?_⟩
  · rw [show (4 : ℝ) * 2 = 8 by ring, abs_of_pos (by norm_num)]
    nlinarith [Real.pi_lt_d2]
  · have h2π : (0 : ℝ) < 2 * Real.pi := by positivity
    have hpos : ¬ (4 : ℝ) * 2 / (2 * Real.pi) < 0 := by
      push_neg; positivity
    simp only [wrapPhase, if_neg hpos, Set.mem_Ico, not_and, not_lt]
    intro _
    rw [le_div_iff₀ h2π, one_mul]
    nlinarith [Real.pi_lt_d2]

/-! ### The state-vector simulator and the QPE circuit

Source cell:
```
def qpe_circuit(unitary, estimation_wires):
    for wire in estimation_wires:
        qml.H(wires=wire)
    qml.ControlledSequence(qml.QubitUnitary(unitary, 0), control=estimation_wires)
    qml.adjoint(qml.QFT)(wires=estimation_wires)

@qml.qnode(device)
def circuit(unitary, estimation_wires):
    create_random_state()
    qpe_circuit(unitary, estimation_wires)
    return qml.probs(wires=estimation_wires)
```
Estimation wire `k : Fin m` stands for the notebook wire `k + 1`;
the system register (notebook wire `0`) is the `Fin 2` index. -/

noncomputable section

/-- Simulator state: amplitudes indexed by the estimation-register bit
assignment and the system-qubit basis index. -/
def QState (m : ℕ) := (Fin m → Bool) → Fin 2 → ℂ

/-- Bit value as a `Fin 2` matrix index. -/
def bIdx (b : Bool) : Fin 2 := cond b 1 0

/-- Apply a single-qubit gate `g` to estimation wire `k`. -/
def applyEst {m : ℕ} (g : Matrix (Fin 2) (Fin 2) ℂ) (k : Fin m)
    (ψ : QState m) : QState m :=
  fun f s => ∑ b : Bool, g (bIdx (f k)) (bIdx b) * ψ (Function.update f k b) s

/-- Apply `U^p` to the system qubit, controlled on estimation wire `k`
being `|1⟩` (`qml.ctrl(qml.pow(U, 2^z), control=wire)`). -/
def applyCtrlPow {m : ℕ} (U : Matrix (Fin 2) (Fin 2) ℂ) (p : ℕ) (k : Fin m)
    (ψ : QState m) : QState m :=
  fun f s => if f k then ∑ t, (U ^ p) s t * ψ f t else ψ f s

/-- Big-endian value of the estimation register (the PennyLane reading:
the first listed wire is the most significant bit). -/
def valBE {m : ℕ} (f : Fin m → Bool) : ℕ :=
  ∑ k : Fin m, cond (f k) (2 ^ (m - 1 - (k : ℕ))) 0

/-- The big-endian bit encoding as an equivalence with `Fin (2^m)`. -/
def encEquiv (m : ℕ) : (Fin m → Bool) ≃ Fin (2 ^ m) :=
  (Equiv.arrowCongr Fin.revPerm finTwoEquiv.symm).trans finFunctionFinEquiv

/-- Adjoint QFT over all estimation wires
(`qml.adjoint(qml.QFT)(wires=estimation_wires)`). -/
def applyQftInv {m : ℕ} (ψ : QState m) : QState m :=
  fun f s => ∑ g : Fin m → Bool,
    (qftMat (2 ^ m))ᴴ (encEquiv m f) (encEquiv m g) * ψ g s

/-- The Hadamard gate `qml.H`. -/
def Hmat : Matrix (Fin 2) (Fin 2) ℂ :=
  Matrix.of fun i j => (1 / Real.sqrt 2 : ℝ) * (if i = 1 ∧ j = 1 then -1 else 1)

/-- The elementary gates the QPE circuit is made of; the unitary of the
controlled powers is supplied at interpretation time. -/
inductive Gate (m : ℕ) where
  | hGate (k : Fin m)
  | cpow (k : Fin m) (p : ℕ)
  | qftAdj
  deriving DecidableEq

/-- Interpretation of one elementary gate. -/
def applyGate {m : ℕ} (U : Matrix (Fin 2) (Fin 2) ℂ) :
    Gate m → QState m → QState m
  | Gate.hGate k => applyEst Hmat k
  | Gate.cpow k p => applyCtrlPow U p k
  | Gate.qftAdj => applyQftInv

/-- Run a gate list left to right. -/
def applyGates {m : ℕ} (U : Matrix (Fin 2) (Fin 2) ℂ) (gs : List (Gate m))
    (ψ : QState m) : QState m :=
  gs.foldl (fun st gate => applyGate U gate st) ψ

/-- The three kinds of operations `qpe_circuit` emits. -/
inductive CircuitOp (m : ℕ) where
  | hOp (k : Fin m)
  | ctrlSeq
  | adjQFTOp

/-- The operation list emitted by `qpe_circuit`, in source order: the
loop of Hadamards, one `qml.ControlledSequence`, one adjoint QFT. -/
def qpeOps (m : ℕ) : List (CircuitOp m) :=
  ((List.finRange m).map CircuitOp.hOp) ++ [CircuitOp.ctrlSeq, CircuitOp.adjQFTOp]

/-- Expansion of each emitted operation into elementary gates.
`qml.ControlledSequence(op, control)` decomposes, per its documented
decomposition, into `qml.ctrl(qml.pow(base, 2^z), w)` for
`z = n-1, n-2, …, 0` zipped with the listed control wires: the `k`-th
listed wire controls `U^(2^(m-1-k))`. -/
def expandOp {m : ℕ} : CircuitOp m → List (Gate m)
  | CircuitOp.hOp k => [Gate.hGate k]
  | CircuitOp.ctrlSeq =>
      (List.finRange m).map fun k => Gate.cpow k (2 ^ (m - 1 - (k : ℕ)))
  | CircuitOp.adjQFTOp => [Gate.qftAdj]

/-- The elementary gate list of the QPE circuit. -/
def qpeGates (m : ℕ) : List (Gate m) :=
  (qpeOps m).flatMap expandOp

/-- The Hadamard stage as a fold (the `for` loop over the wires). -/
def hLayer {m : ℕ} (ψ : QState m) : QState m :=
  (List.finRange m).foldl (fun st k => applyEst Hmat k st) ψ

/-- The controlled power-ladder stage. -/
def ladder {m : ℕ} (U : Matrix (Fin 2) (Fin 2) ℂ) (ψ : QState m) : QState m :=
  (List.finRange m).foldl
    (fun st k => applyCtrlPow U (2 ^ (m - 1 - k.val)) k st) ψ

/-- The full QPE circuit `qpe_circuit(unitary, estimation_wires)`. -/
def qpeCircuit {m : ℕ} (U : Matrix (Fin 2) (Fin 2) ℂ) (ψ : QState m) : QState m :=
  applyGates U (qpeGates m) ψ

/-- Initial state: estimation register `|0…0⟩`, system qubit in `ψv`. -/
def initState {m : ℕ} (ψv : Fin 2 → ℂ) : QState m :=
  fun f s => if (∀ k, f k = false) then ψv s else 0

/-- The measurement `qml.probs(wires=estimation_wires)`: the marginal
distribution over the estimation register, summing squared amplitude
moduli over the system qubit. -/
def probsEst {m : ℕ} (ψ : QState m) (f : Fin m → Bool) : ℝ :=
  ∑ s, Complex.normSq (ψ f s)

/-- Squared `ℓ²` norm of a simulator state. -/
def norm2 {m : ℕ} (ψ : QState m) : ℝ :=
  ∑ f : Fin m → Bool, ∑ s, Complex.normSq (ψ f s)

end

/-! ### Stage structure of the emitted circuit -/

theorem qpeGates_decomp (m : ℕ) :
    qpeGates m
      = ((List.finRange m).map Gate.hGate)
        ++ ((List.finRange m).map fun k => Gate.cpow k (2 ^ (m - 1 - k.val)))
        ++ [Gate.qftAdj] := by
  have key : ∀ l : List (Fin m),
      ((l.map CircuitOp.hOp ++ [CircuitOp.ctrlSeq, CircuitOp.adjQFTOp]).flatMap
          expandOp)
        = l.map Gate.hGate
          ++ ((List.finRange m).map fun k => Gate.cpow k (2 ^ (m - 1 - k.val)))
          ++ [Gate.qftAdj] := by
    intro l
    induction l with
    | nil => simp [expandOp]
    | cons a l ih =>
        simp only [List.map_cons, List.cons_append, List.flatMap_cons,
          expandOp, ih]
        simp
  exact key (List.finRange m)

/-- **C6.** The circuit builder emits exactly three stages in a fixed
order: a Hadamard on every estimation wire, the controlled power-ladder
of the unitary, and last the adjoint QFT over all estimation wires;
nothing else is emitted between or after them. -/
theorem qpeGates_stages (m : ℕ) :
    qpeGates m
      = ((List.finRange m).map Gate.hGate)
        ++ ((List.finRange m).map fun k => Gate.cpow k (2 ^ (m - 1 - k.val)))
        ++ [Gate.qftAdj] :=
  qpeGates_decomp m

theorem applyGates_append {m : ℕ} (U : Matrix (Fin 2) (Fin 2) ℂ)
    (l1 l2 : List (Gate m)) (ψ : QState m) :
    applyGates U (l1 ++ l2) ψ = applyGates U l2 (applyGates U l1 ψ) := by
  simp [applyGates, List.foldl_append]

theorem hLayer_applyGates {m : ℕ} (U : Matrix (Fin 2) (Fin 2) ℂ) (ψ : QState m) :
    applyGates U ((List.finRange m).map Gate.hGate) ψ = hLayer ψ := by
  simp only [applyGates, hLayer, List.foldl_map]
  rfl

theorem ladder_applyGates {m : ℕ} (U : Matrix (Fin 2) (Fin 2) ℂ) (ψ : QState m) :
    applyGates U ((List.finRange m).map fun k => Gate.cpow k (2 ^ (m - 1 - k.val))) ψ
      = ladder U ψ := by
  simp only [applyGates, ladder, List.foldl_map]
  rfl

/-- The semantics of the circuit decomposes into the three stages. -/
theorem qpeCircuit_decomp {m : ℕ} (U : Matrix (Fin 2) (Fin 2) ℂ) (ψ : QState m) :
    qpeCircuit U ψ = applyQftInv (ladder U (hLayer ψ)) := by
  rw [qpeCircuit, qpeGates_decomp, applyGates_append, applyGates_append,
    hLayer_applyGates, ladder_applyGates]
  rfl

/-! ### Action of the controlled power-ladder -/

theorem ladder_apply {m : ℕ} (U : Matrix (Fin 2) (Fin 2) ℂ) (ψ : QState m)
    (f : Fin m → Bool) (s : Fin 2) :
    ladder U ψ f s = ∑ t, (U ^ valBE f) s t * ψ f t := by
  have main : ∀ (l : List (Fin m)) (χ : QState m) (s : Fin 2),
      (l.foldl (fun st k => applyCtrlPow U (2 ^ (m - 1 - k.val)) k st) χ) f s
        = ∑ t, (U ^ ((l.map fun k =>
            if f k then 2 ^ (m - 1 - k.val) else 0).sum)) s t * χ f t := by
    intro l
    induction l with
    | nil =>
        intro χ s
        simp [Matrix.one_apply]
    | cons a l ih =>
        intro χ s
        rw [List.foldl_cons, ih]
        by_cases ha : f a
        · simp only [applyCtrlPow, if_pos ha, List.map_cons, List.sum_cons,
            if_pos ha]
          have hswap : ∀ t : Fin 2,
              (U ^ ((l.map fun k =>
                  if f k then 2 ^ (m - 1 - k.val) else 0).sum)) s t
                * ∑ u, (U ^ (2 ^ (m - 1 - a.val))) t u * χ f u
              = ∑ u, ((U ^ ((l.map fun k =>
                  if f k then 2 ^ (m - 1 - k.val) else 0).sum)) s t
                  * (U ^ (2 ^ (m - 1 - a.val))) t u) * χ f u := by
            intro t
            rw [Finset.mul_sum]
            exact Finset.sum_congr rfl fun u _ => by ring
          rw [Finset.sum_congr rfl fun t _ => hswap t, Finset.sum_comm]
          refine Finset.sum_congr rfl fun u _ => ?_
          rw [← Finset.sum_mul]
          congr 1
          rw [← Matrix.mul_apply, ← pow_add, add_comm]
        · simp only [applyCtrlPow, if_neg ha, List.map_cons, List.sum_cons,
            if_neg ha, zero_add]
  have hval : ((List.finRange m).map fun k =>
      if f k then 2 ^ (m - 1 - k.val) else 0).sum = valBE f := by
    rw [valBE, Fin.sum_univ_def]
    congr 1
    exact List.map_congr_left fun k _ => by cases hfk : f k <;> simp [hfk]
  rw [ladder, main (List.finRange m) ψ s, hval]

/-- **C2 (amended).** The controlled power-ladder applies `U^x` to the
system register, where `x` is the big-endian value of the estimation
register: jointly it realizes `|x⟩|ψ⟩ → |x⟩ U^x |ψ⟩`.  (The `k`-th
listed wire controls `U^(2^(m-1-k))`, not `U^(2^k)`.) -/
theorem ladder_controlled_powers {m : ℕ} (U : Matrix (Fin 2) (Fin 2) ℂ)
    (ψ : QState m) (f : Fin m → Bool) (s : Fin 2) :
    ladder U ψ f s = ∑ t, (U ^ valBE f) s t * ψ f t :=
  ladder_apply U ψ f s

/-- **C2 (counterexample).** At `m = 2` the first-listed estimation wire
does not control `U^(2^0)`: the emitted ladder gates are
`cpow 0 2, cpow 1 1`, not `cpow k (2^k)`. -/
theorem ladder_powers_not_ascending :
    ¬ ∀ k : Fin 2, (qpeGates 2)[(2 + k.val)]? = some (Gate.cpow k (2 ^ k.val)) := by
  decide

/-! ### The big-endian encoding -/

theorem encEquiv_val {m : ℕ} (f : Fin m → Bool) :
    ((encEquiv m f : Fin (2 ^ m)) : ℕ) = valBE f := by
  have happ : (encEquiv m f : Fin (2 ^ m))
      = finFunctionFinEquiv fun i => finTwoEquiv.symm (f (Fin.rev i)) := by
    rfl
  rw [happ, finFunctionFinEquiv_apply, valBE]
  refine Fintype.sum_bijective Fin.rev Fin.rev_bijective _ _ fun i => ?_
  have hrev : (Fin.rev i : ℕ) = m - 1 - (i : ℕ) := by
    have h1 : (Fin.rev i : ℕ) = m - ((i : ℕ) + 1) := rfl
    omega
  rw [hrev]
  cases hfi : f (Fin.rev i)
  · simp [hfi, finTwoEquiv]
  · have h2 : m - 1 - (m - 1 - (i : ℕ)) = (i : ℕ) := by
      have := i.isLt
      omega
    simp [hfi, finTwoEquiv, h2]

theorem valBE_lt {m : ℕ} (f : Fin m → Bool) : valBE f < 2 ^ m := by
  rw [← encEquiv_val]
  exact (encEquiv m f : Fin (2 ^ m)).isLt

/-- Summing a function of the register value over all bit assignments is
summing it over `0, …, 2^m - 1`. -/
theorem sum_over_states {m : ℕ} (F : ℕ → ℂ) :
    ∑ f : Fin m → Bool, F (valBE f) = ∑ x ∈ Finset.range (2 ^ m), F x := by
  have h1 : ∑ f : Fin m → Bool, F (valBE f)
      = ∑ f : Fin m → Bool, F ((encEquiv m f : Fin (2 ^ m)) : ℕ) :=
    Finset.sum_congr rfl fun f _ => by rw [encEquiv_val]
  rw [h1, ← Fin.sum_univ_eq_sum_range (fun x => F x) (2 ^ m)]
  exact Equiv.sum_comp (encEquiv m) fun y : Fin (2 ^ m) => F (y : ℕ)

/-! ### Eigenvector powers and the Hadamard stage -/

theorem mulVec_pow_eig {U : Matrix (Fin 2) (Fin 2) ℂ} {μ : ℂ} {ψv : Fin 2 → ℂ}
    (h : U.mulVec ψv = μ • ψv) (p : ℕ) :
    (U ^ p).mulVec ψv = μ ^ p • ψv := by
  induction p with
  | zero => simp [Matrix.one_mulVec]
  | succ p ih =>
      rw [pow_succ, ← Matrix.mulVec_mulVec, h, Matrix.mulVec_smul, ih,
        smul_smul, pow_succ, mul_comm]

theorem hLayer_fold {m : ℕ} (ψv : Fin 2 → ℂ) :
    ∀ l : List (Fin m), l.Nodup →
      ∀ (f : Fin m → Bool) (s : Fin 2),
        (l.foldl (fun st k => applyEst Hmat k st) (initState ψv)) f s
          = if (∀ j, j ∉ l → f j = false)
              then (((1 / Real.sqrt 2 : ℝ) ^ l.length : ℝ) : ℂ) * ψv s
              else 0 := by
  intro l
  induction l using List.reverseRecOn with
  | nil =>
      intro _ f s
      by_cases hf : ∀ j, f j = false
      · rw [List.foldl_nil, initState, if_pos hf, if_pos]
        · simp
        · intro j _; exact hf j
      · rw [List.foldl_nil, initState, if_neg hf, if_neg]
        intro hall
        exact hf fun j => hall j (List.not_mem_nil j)
  | append_singleton l k ih =>
      intro hnd f s
      have hl : l.Nodup := hnd.of_append_left
      have hk : k ∉ l := by
        intro hmem
        rcases List.nodup_append.mp hnd with ⟨_, _, hdisj⟩
        exact hdisj hmem (List.mem_singleton.mpr rfl)
      rw [List.foldl_append, List.foldl_cons, List.foldl_nil]
      have hupd : ∀ b : Bool,
          (l.foldl (fun st j => applyEst Hmat j st) (initState ψv))
              (Function.update f k b) s
            = if (∀ j, j ∉ l → Function.update f k b j = false)
                then (((1 / Real.sqrt 2 : ℝ) ^ l.length : ℝ) : ℂ) * ψv s
                else 0 := fun b => ih hl (Function.update f k b) s
      show (∑ b : Bool, Hmat (bIdx (f k)) (bIdx b)
          * (l.foldl (fun st j => applyEst Hmat j st) (initState ψv))
              (Function.update f k b) s) = _
      rw [Fintype.sum_bool, hupd true, hupd false]
      by_cases hcond : ∀ j, j ∉ l ++ [k] → f j = false
      · have hfalse : ∀ j, j ∉ l → Function.update f k false j = false := by
          intro j hj
          by_cases hjk : j = k
          · subst hjk; simp
          · rw [Function.update_noteq hjk]
            refine hcond j ?_
            simp [List.mem_append, hj, hjk]
        have htrue : ¬ ∀ j, j ∉ l → Function.update f k true j = false := by
          intro hall
          have := hall k hk
          simp at this
        rw [if_pos hcond, if_pos hfalse, if_neg htrue, mul_zero, zero_add,
          List.length_append, List.length_singleton]
        have hH : Hmat (bIdx (f k)) (bIdx false) = ((1 / Real.sqrt 2 : ℝ) : ℂ) := by
          rcases Bool.dichotomy (f k) with hfk | hfk <;>
            simp [hfk, Hmat, bIdx]
        rw [hH, pow_succ, Complex.ofReal_mul]
        ring
      · push_neg at hcond
        obtain ⟨j0, hj0mem, hj0⟩ := hcond
        have hj0l : j0 ∉ l := fun hm => hj0mem (List.mem_append_left _ hm)
        have hj0k : j0 ≠ k := by
          intro heq
          exact hj0mem (List.mem_append_right _ (by simp [heq]))
        have hbad : ∀ b : Bool,
            ¬ ∀ j, j ∉ l → Function.update f k b j = false := by
          intro b hall
          have := hall j0 hj0l
          rw [Function.update_noteq hj0k] at this
          exact hj0 this
        have htarget : ¬ ∀ j, j ∉ l ++ [k] → f j = false :=
          fun hall => hj0 (hall j0 hj0mem)
        rw [if_neg (hbad true), if_neg (hbad false), if_neg htarget]
        simp

theorem hLayer_init {m : ℕ} (ψv : Fin 2 → ℂ) (f : Fin m → Bool) (s : Fin 2) :
    hLayer (initState ψv) f s
      = (((1 / Real.sqrt 2 : ℝ) ^ m : ℝ) : ℂ) * ψv s := by
  have hall : ∀ j : Fin m, j ∉ List.finRange m → f j = false :=
    fun j hj => absurd (List.mem_finRange j) hj
  rw [hLayer, hLayer_fold ψv (List.finRange m) (List.nodup_finRange m) f s,
    if_pos hall, List.length_finRange]

/-! ### Putting the three stages together -/

theorem ladder_hLayer_init {m : ℕ} (U : Matrix (Fin 2) (Fin 2) ℂ) {μ : ℂ}
    {ψv : Fin 2 → ℂ} (hev : U.mulVec ψv = μ • ψv)
    (f : Fin m → Bool) (s : Fin 2) :
    ladder U (hLayer (initState ψv)) f s
      = (((1 / Real.sqrt 2 : ℝ) ^ m : ℝ) : ℂ) * (μ ^ valBE f * ψv s) := by
  rw [ladder_apply]
  have h2 : ((U ^ valBE f).mulVec ψv) s = μ ^ valBE f * ψv s := by
    rw [mulVec_pow_eig hev]
    simp
  calc ∑ t, (U ^ valBE f) s t * hLayer (initState ψv) f t
      = (((1 / Real.sqrt 2 : ℝ) ^ m : ℝ) : ℂ) * ∑ t, (U ^ valBE f) s t * ψv t := by
        rw [Finset.mul_sum]
        exact Finset.sum_congr rfl fun t _ => by rw [hLayer_init ψv f t]; ring
    _ = (((1 / Real.sqrt 2 : ℝ) ^ m : ℝ) : ℂ) * ((U ^ valBE f).mulVec ψv) s := rfl
    _ = _ := by rw [h2]

theorem qpe_prefactor (m : ℕ) :
    (1 / Real.sqrt ((2 ^ m : ℕ) : ℝ)) * ((1 / Real.sqrt 2) ^ m)
        * ((2 ^ m : ℕ) : ℝ) = 1 := by
  have hsq : Real.sqrt 2 ^ m = Real.sqrt ((2 : ℝ) ^ m) := by
    induction m with
    | zero => simp
    | succ n ih => rw [pow_succ, ih, pow_succ, ← Real.sqrt_mul (by positivity)]
  have h2 : ((2 ^ m : ℕ) : ℝ) = (2 : ℝ) ^ m := by push_cast; ring
  have hpos : (0 : ℝ) < (2 : ℝ) ^ m := by positivity
  have hself : Real.sqrt ((2 : ℝ) ^ m) * Real.sqrt ((2 : ℝ) ^ m) = (2 : ℝ) ^ m :=
    Real.mul_self_sqrt hpos.le
  have hsnz : Real.sqrt ((2 : ℝ) ^ m) ≠ 0 := by
    intro h0
    rw [h0, zero_mul] at hself
    exact (ne_of_gt hpos) hself.symm
  rw [h2, div_pow, one_pow, hsq]
  field_simp

theorem not_dvd_of_bound {N : ℕ} {d : ℤ} (hN : 0 < N) (hgt : -(N : ℤ) < d)
    (hlt : d < N) (hne : d ≠ 0) : ¬ (N : ℤ) ∣ d := by
  rintro ⟨c, rfl⟩
  rcases lt_trichotomy c 0 with hc | hc | hc
  · have h1 : c ≤ -1 := by omega
    have h2 : (N : ℤ) * c ≤ (N : ℤ) * (-1) :=
      mul_le_mul_of_nonneg_left h1 (by exact_mod_cast hN.le)
    have h3 : (N : ℤ) * (-1) = -(N : ℤ) := by ring
    linarith
  · exact hne (by rw [hc, mul_zero])
  · have h1 : (1 : ℤ) ≤ c := hc
    have h2 : (N : ℤ) * 1 ≤ (N : ℤ) * c :=
      mul_le_mul_of_nonneg_left h1 (by exact_mod_cast hN.le)
    linarith

theorem qpe_amp {m : ℕ} {i : ℕ} (hi : i < 2 ^ m)
    {U : Matrix (Fin 2) (Fin 2) ℂ} {ψv : Fin 2 → ℂ}
    (hev : U.mulVec ψv
      = Complex.exp (2 * Real.pi * I * i / ((2 ^ m : ℕ) : ℂ)) • ψv)
    (g : Fin m → Bool) (s : Fin 2) :
    qpeCircuit U (initState ψv) g s = if valBE g = i then ψv s else 0 := by
  have hNpos : 0 < (2 ^ m : ℕ) := by positivity
  have hNc : ((2 ^ m : ℕ) : ℂ) ≠ 0 :=
    Nat.cast_ne_zero.mpr (Nat.pos_iff_ne_zero.mp hNpos)
  set d : ℤ := (i : ℤ) - (valBE g : ℤ) with hddef
  have key : ∀ (c1 c2 ps A B C : ℂ), A + B = C →
      (c1 * Complex.exp A) * (c2 * (Complex.exp B * ps))
        = c1 * c2 * ps * Complex.exp C := by
    intro c1 c2 ps A B C h
    rw [← h, Complex.exp_add]
    ring
  have hterm : ∀ f : Fin m → Bool,
      (qftMat (2 ^ m))ᴴ (encEquiv m g) (encEquiv m f)
          * ladder U (hLayer (initState ψv)) f s
        = ((1 / Real.sqrt ((2 ^ m : ℕ) : ℝ) : ℝ) : ℂ)
            * (((1 / Real.sqrt 2 : ℝ) ^ m : ℝ) : ℂ) * ψv s
            * Complex.exp (2 * Real.pi * I * ((d : ℤ) : ℂ)
                * ((valBE f : ℕ) : ℂ) / ((2 ^ m : ℕ) : ℂ)) := by
    intro f
    rw [ladder_hLayer_init U hev f s, qftMat_conjTranspose]
    have hvg : (((encEquiv m g : Fin (2 ^ m)) : ℕ) : ℂ) = ((valBE g : ℕ) : ℂ) := by
      rw [encEquiv_val]
    have hvf : (((encEquiv m f : Fin (2 ^ m)) : ℕ) : ℂ) = ((valBE f : ℕ) : ℂ) := by
      rw [encEquiv_val]
    have hμpow : Complex.exp (2 * Real.pi * I * i / ((2 ^ m : ℕ) : ℂ)) ^ valBE f
        = Complex.exp (((valBE f : ℕ) : ℂ)
            * (2 * Real.pi * I * i / ((2 ^ m : ℕ) : ℂ))) :=
      (Complex.exp_nat_mul _ (valBE f)).symm
    rw [invDftMat]
    simp only [Matrix.of_apply]
    rw [hvg, hvf, hμpow, mul_comm
      (Complex.exp (((valBE f : ℕ) : ℂ)
        * (2 * Real.pi * I * i / ((2 ^ m : ℕ) : ℂ)))) (ψv s)]
    rw [mul_comm (ψv s) (Complex.exp _)]
    refine key _ _ _ _ _ _ ?_
    rw [hddef]
    push_cast
    field_simp
    ring
  have hstart : qpeCircuit U (initState ψv) g s
      = ∑ f : Fin m → Bool,
          (qftMat (2 ^ m))ᴴ (encEquiv m g) (encEquiv m f)
            * ladder U (hLayer (initState ψv)) f s := by
    rw [qpeCircuit_decomp]
    rfl
  rw [hstart, Finset.sum_congr rfl fun f _ => hterm f, ← Finset.mul_sum]
  rw [sum_over_states (fun x : ℕ => Complex.exp
      (2 * Real.pi * I * ((d : ℤ) : ℂ) * ((x : ℕ) : ℂ) / ((2 ^ m : ℕ) : ℂ)))]
  rw [sum_exp_unit_root (2 ^ m) hNpos d]
  have hvglt : valBE g < 2 ^ m := valBE_lt g
  by_cases hgi : valBE g = i
  · have hd0 : d = 0 := by rw [hddef, hgi, sub_self]
    rw [if_pos (hd0 ▸ dvd_zero ((2 ^ m : ℕ) : ℤ)), if_pos hgi]
    have hreal : ((1 / Real.sqrt ((2 ^ m : ℕ) : ℝ) : ℝ) : ℂ)
        * (((1 / Real.sqrt 2 : ℝ) ^ m : ℝ) : ℂ) * ((2 ^ m : ℕ) : ℂ) = 1 := by
      rw [← Complex.ofReal_natCast, ← Complex.ofReal_mul, ← Complex.ofReal_mul,
        qpe_prefactor m, Complex.ofReal_one]
    calc ((1 / Real.sqrt ((2 ^ m : ℕ) : ℝ) : ℝ) : ℂ)
          * (((1 / Real.sqrt 2 : ℝ) ^ m : ℝ) : ℂ) * ψv s * ((2 ^ m : ℕ) : ℂ)
        = (((1 / Real.sqrt ((2 ^ m : ℕ) : ℝ) : ℝ) : ℂ)
            * (((1 / Real.sqrt 2 : ℝ) ^ m : ℝ) : ℂ) * ((2 ^ m : ℕ) : ℂ)) * ψv s := by
          ring
      _ = 1 * ψv s := by rw [hreal]
      _ = ψv s := one_mul _
  · have hne : d ≠ 0 := by
      rw [hddef]
      intro h0
      apply hgi
      omega
    have hgt : -((2 ^ m : ℕ) : ℤ) < d := by
      rw [hddef]
      omega
    have hlt : d < ((2 ^ m : ℕ) : ℤ) := by
      rw [hddef]
      omega
    rw [if_neg (not_dvd_of_bound hNpos hgt hlt hne), if_neg hgi, mul_zero]

/-- **C3.** For `m ≥ 1` and a phase exactly representable as `i/2^m`,
running the QPE circuit on a unitary whose eigenphase for the prepared
system eigenstate is `i/2^m` puts all probability mass (`1`) on the
estimation bitstring of value `i` and `0` on every other bitstring. -/
theorem qpe_exact_phase_peak (m : ℕ) (hm : 1 ≤ m) (i : ℕ) (hi : i < 2 ^ m)
    (U : Matrix (Fin 2) (Fin 2) ℂ) (ψv : Fin 2 → ℂ)
    (hev : U.mulVec ψv
      = Complex.exp (2 * Real.pi * I * i / ((2 ^ m : ℕ) : ℂ)) • ψv)
    (hψ : ∑ s, Complex.normSq (ψv s) = 1) (g : Fin m → Bool) :
    probsEst (qpeCircuit U (initState ψv)) g
      = if valBE g = i then 1 else 0 := by
  rw [probsEst,
    Finset.sum_congr rfl fun s _ => by rw [qpe_amp hi hev g s]]
  by_cases h : valBE g = i
  · simp only [if_pos h]
    exact hψ
  · simp only [if_neg h]
    simp

theorem qpe_witness_hev :
    (1 : Matrix (Fin 2) (Fin 2) ℂ).mulVec ![1, 0]
      = Complex.exp (2 * Real.pi * I * (0 : ℕ) / ((2 ^ 1 : ℕ) : ℂ)) • ![1, 0] := by
  rw [Matrix.one_mulVec]
  simp

theorem qpe_witness_norm :
    ∑ s, Complex.normSq ((![1, 0] : Fin 2 → ℂ) s) = 1 := by
  simp [Fin.sum_univ_two]

/-- Witness for `qpe_exact_phase_peak` at `m = 1`, `i = 0`, `U = 1`,
eigenstate `(1,0)`, bitstring `(false)`. -/
theorem qpe_exact_phase_peak_witness :
    1 ≤ 1 ∧ (0 < 2 ^ 1) ∧
      ((1 : Matrix (Fin 2) (Fin 2) ℂ).mulVec ![1, 0]
        = Complex.exp (2 * Real.pi * I * (0 : ℕ) / ((2 ^ 1 : ℕ) : ℂ)) • ![1, 0]) ∧
      (∑ s, Complex.normSq ((![1, 0] : Fin 2 → ℂ) s) = 1) ∧
      probsEst (qpeCircuit 1 (initState ![1, 0])) (fun _ : Fin 1 => false)
        = if valBE (fun _ : Fin 1 => false) = 0 then 1 else 0 :=
  ⟨le_refl 1, by norm_num, qpe_witness_hev, qpe_witness_norm,
    qpe_exact_phase_peak 1 (le_refl 1) 0 (by norm_num) 1 ![1, 0]
      qpe_witness_hev qpe_witness_norm (fun _ => false)⟩

/-! ### Norm preservation -/

theorem sum_normSq_mulVec {n : Type*} [Fintype n] [DecidableEq n]
    (V : Matrix n n ℂ) (hV : Vᴴ * V = 1) (x : n → ℂ) :
    ∑ s, Complex.normSq (V.mulVec x s) = ∑ s, Complex.normSq (x s) := by
  have hC : (∑ s, V.mulVec x s * conj (V.mulVec x s))
      = ∑ t, x t * conj (x t) := by
    have hexpand : ∀ s, V.mulVec x s * conj (V.mulVec x s)
        = ∑ t, ∑ u, V s t * x t * (conj (V s u) * conj (x u)) := by
      intro s
      rw [show V.mulVec x s = ∑ t, V s t * x t from rfl, map_sum,
        Finset.sum_mul]
      refine Finset.sum_congr rfl fun t _ => ?_
      rw [Finset.mul_sum]
      refine Finset.sum_congr rfl fun u _ => ?_
      rw [map_mul]
    rw [Finset.sum_congr rfl fun s _ => hexpand s, Finset.sum_comm]
    refine Finset.sum_congr rfl fun t _ => ?_
    rw [Finset.sum_comm]
    have hinner : ∀ u, (∑ s, V s t * x t * (conj (V s u) * conj (x u)))
        = x t * conj (x u) * ((Vᴴ * V) u t) := by
      intro u
      rw [Matrix.mul_apply, Finset.mul_sum]
      refine Finset.sum_congr rfl fun s _ => ?_
      rw [Matrix.conjTranspose_apply, RCLike.star_def]
      ring
    rw [Finset.sum_congr rfl fun u _ => hinner u, hV]
    simp [Matrix.one_apply, mul_ite]
  have hC' : ((∑ s, Complex.normSq (V.mulVec x s) : ℝ) : ℂ)
      = ((∑ s, Complex.normSq (x s) : ℝ) : ℂ) := by
    rw [Complex.ofReal_sum, Complex.ofReal_sum]
    calc ∑ s, ((Complex.normSq (V.mulVec x s) : ℝ) : ℂ)
        = ∑ s, V.mulVec x s * conj (V.mulVec x s) :=
          Finset.sum_congr rfl fun s _ => (Complex.mul_conj _).symm
      _ = ∑ t, x t * conj (x t) := hC
      _ = ∑ t, ((Complex.normSq (x t) : ℝ) : ℂ) :=
          Finset.sum_congr rfl fun t _ => Complex.mul_conj _
  exact_mod_cast hC'

theorem pow_unitary {U : Matrix (Fin 2) (Fin 2) ℂ} (hU : Uᴴ * U = 1) (p : ℕ) :
    (U ^ p)ᴴ * U ^ p = 1 := by
  induction p with
  | zero => simp
  | succ p ih =>
      rw [pow_succ, Matrix.conjTranspose_mul, Matrix.mul_assoc,
        ← Matrix.mul_assoc ((U ^ p)ᴴ) (U ^ p) U, ih, Matrix.one_mul, hU]

theorem qftMat_mul_conjTranspose (N : ℕ) (hN : 0 < N) :
    qftMat N * (qftMat N)ᴴ = 1 := by
  have hNr : (0 : ℝ) < (N : ℝ) := by exact_mod_cast hN
  have hNc : ((N : ℕ) : ℂ) ≠ 0 :=
    Nat.cast_ne_zero.mpr (Nat.pos_iff_ne_zero.mp hN)
  have hss : (1 / Real.sqrt (N : ℝ)) * (1 / Real.sqrt (N : ℝ)) = 1 / (N : ℝ) := by
    rw [div_mul_div_comm, one_mul, Real.mul_self_sqrt hNr.le]
  ext j k
  rw [Matrix.mul_apply]
  set d : ℤ := (j : ℤ) - (k : ℤ) with hddef
  have hterm : ∀ l : Fin N,
      qftMat N j l * (qftMat N)ᴴ l k
        = ((1 / (N : ℝ) : ℝ) : ℂ) * Complex.exp (2 * Real.pi * I
            * ((d : ℤ) : ℂ) * ((l : ℕ) : ℂ) / ((N : ℕ) : ℂ)) := by
    intro l
    rw [qftMat_conjTranspose, invDftMat, qftMat]
    simp only [Matrix.of_apply]
    rw [mul_mul_mul_comm, ← Complex.exp_add, ← Complex.ofReal_mul, hss]
    congr 2
    rw [hddef]
    push_cast
    field_simp
    ring
  rw [Finset.sum_congr rfl fun l _ => hterm l, ← Finset.mul_sum,
    Fin.sum_univ_eq_sum_range (fun x : ℕ => Complex.exp (2 * Real.pi * I
      * ((d : ℤ) : ℂ) * ((x : ℕ) : ℂ) / ((N : ℕ) : ℂ))) N,
    sum_exp_unit_root N hN d]
  by_cases hjk : j = k
  · have hd0 : d = 0 := by rw [hddef, hjk, sub_self]
    rw [if_pos (hd0 ▸ dvd_zero ((N : ℕ) : ℤ)), hjk, Matrix.one_apply_eq]
    rw [← Complex.ofReal_natCast, ← Complex.ofReal_mul]
    rw [one_div, inv_mul_cancel₀ (ne_of_gt hNr), Complex.ofReal_one]
  · have hne : d ≠ 0 := by
      rw [hddef]
      intro h0
      exact hjk (Fin.ext (by omega))
    have hgt : -((N : ℕ) : ℤ) < d := by
      rw [hddef]
      have := k.isLt
      omega
    have hlt : d < ((N : ℕ) : ℤ) := by
      rw [hddef]
      have := j.isLt
      omega
    rw [if_neg (not_dvd_of_bound hN hgt hlt hne), mul_zero,
      Matrix.one_apply_ne hjk]

theorem Hmat_unitary : Hmatᴴ * Hmat = 1 := by
  have hs : Real.sqrt 2 * Real.sqrt 2 = 2 := Real.mul_self_sqrt (by norm_num)
  have h2 : ((Real.sqrt 2 : ℝ) : ℂ)⁻¹ * ((Real.sqrt 2 : ℝ) : ℂ)⁻¹ = 1 / 2 := by
    rw [← mul_inv, ← Complex.ofReal_mul, hs]
    norm_num
  ext i j
  fin_cases i <;> fin_cases j <;>
    simp only [Matrix.mul_apply, Matrix.conjTranspose_apply, Hmat,
      Matrix.of_apply, Fin.sum_univ_two, RCLike.star_def, map_mul,
      Complex.conj_ofReal, Matrix.one_apply] <;>
    norm_num [h2]

theorem norm2_applyCtrlPow {m : ℕ} {U : Matrix (Fin 2) (Fin 2) ℂ}
    (hU : Uᴴ * U = 1) (p : ℕ) (k : Fin m) (ψ : QState m) :
    norm2 (applyCtrlPow U p k ψ) = norm2 ψ := by
  rw [norm2, norm2]
  refine Finset.sum_congr rfl fun f _ => ?_
  by_cases hfk : f k
  · have hmv : ∀ s, applyCtrlPow U p k ψ f s
        = (U ^ p).mulVec (fun t => ψ f t) s := by
      intro s
      simp [applyCtrlPow, hfk, Matrix.mulVec, Matrix.dotProduct]
    rw [Finset.sum_congr rfl fun s _ => by rw [hmv s]]
    exact sum_normSq_mulVec _ (pow_unitary hU p) _
  · refine Finset.sum_congr rfl fun s _ => ?_
    simp [applyCtrlPow, hfk]

theorem norm2_applyQftInv {m : ℕ} (ψ : QState m) :
    norm2 (applyQftInv ψ) = norm2 ψ := by
  classical
  have hNpos : 0 < (2 ^ m : ℕ) := by positivity
  set Q : Matrix (Fin m → Bool) (Fin m → Bool) ℂ :=
    ((qftMat (2 ^ m))ᴴ).submatrix (encEquiv m) (encEquiv m) with hQ
  have hQu : Qᴴ * Q = 1 := by
    rw [hQ, Matrix.conjTranspose_submatrix, Matrix.submatrix_mul_equiv,
      Matrix.conjTranspose_conjTranspose,
      qftMat_mul_conjTranspose (2 ^ m) hNpos, Matrix.submatrix_one_equiv]
  have hmv : ∀ (f : Fin m → Bool) (s : Fin 2),
      applyQftInv ψ f s = Q.mulVec (fun g => ψ g s) f := by
    intro f s
    simp [applyQftInv, hQ, Matrix.mulVec, Matrix.dotProduct,
      Matrix.submatrix_apply]
  have hcomm : ∀ χ : QState m,
      norm2 χ = ∑ s : Fin 2, ∑ f : Fin m → Bool, Complex.normSq (χ f s) := by
    intro χ
    rw [norm2]
    exact Finset.sum_comm
  rw [hcomm, hcomm]
  refine Finset.sum_congr rfl fun s _ => ?_
  rw [Finset.sum_congr rfl fun f _ => by rw [hmv f s]]
  exact sum_normSq_mulVec Q hQu _

theorem norm2_applyEst {m : ℕ} {g : Matrix (Fin 2) (Fin 2) ℂ}
    (hg : gᴴ * g = 1) (k : Fin m) (ψ : QState m) :
    norm2 (applyEst g k ψ) = norm2 ψ := by
  classical
  set E := Equiv.funSplitAt k Bool with hE
  have hEk : ∀ (b : Bool) (r : {j : Fin m // j ≠ k} → Bool),
      E.symm (b, r) k = b := by
    intro b r
    simp [hE, Equiv.funSplitAt, Equiv.piSplitAt]
  have hEne : ∀ (b : Bool) (r : {j : Fin m // j ≠ k} → Bool) (j : Fin m)
      (hj : j ≠ k), E.symm (b, r) j = r ⟨j, hj⟩ := by
    intro b r j hj
    simp [hE, Equiv.funSplitAt, Equiv.piSplitAt, hj]
  have hupd : ∀ (b b' : Bool) (r : {j : Fin m // j ≠ k} → Bool),
      Function.update (E.symm (b, r)) k b' = E.symm (b', r) := by
    intro b b' r
    funext j
    by_cases hj : j = k
    · subst hj
      rw [Function.update_same, hEk]
    · rw [Function.update_noteq hj, hEne b r j hj, hEne b' r j hj]
  set gB : Matrix Bool Bool ℂ := g.submatrix bIdx bIdx with hgB
  have hbIdx : ∀ b, bIdx b = finTwoEquiv.symm b := by
    intro b
    cases b <;> rfl
  have hgBu : gBᴴ * gB = 1 := by
    have h1 : gB = g.submatrix finTwoEquiv.symm finTwoEquiv.symm := by
      rw [hgB]
      congr 1
    rw [h1, Matrix.conjTranspose_submatrix, Matrix.submatrix_mul_equiv, hg,
      Matrix.submatrix_one_equiv]
  have hpoint : ∀ (b : Bool) (r : {j : Fin m // j ≠ k} → Bool) (s : Fin 2),
      applyEst g k ψ (E.symm (b, r)) s
        = gB.mulVec (fun b' => ψ (E.symm (b', r)) s) b := by
    intro b r s
    simp only [applyEst, Matrix.mulVec, Matrix.dotProduct, hgB,
      Matrix.submatrix_apply, hEk, hupd]
  have hsplitA : ∀ χ : QState m,
      norm2 χ = ∑ r : {j : Fin m // j ≠ k} → Bool, ∑ s : Fin 2, ∑ b : Bool,
        Complex.normSq (χ (E.symm (b, r)) s) := by
    intro χ
    rw [norm2,
      ← Equiv.sum_comp E.symm (fun f => ∑ s, Complex.normSq (χ f s)),
      Fintype.sum_prod_type, Finset.sum_comm]
    exact Finset.sum_congr rfl fun r _ => Finset.sum_comm
  rw [hsplitA (applyEst g k ψ), hsplitA ψ]
  refine Finset.sum_congr rfl fun r _ => Finset.sum_congr rfl fun s _ => ?_
  rw [Finset.sum_congr rfl fun b _ => by rw [hpoint b r s]]
  exact sum_normSq_mulVec gB hgBu _

theorem norm2_applyGate {m : ℕ} {U : Matrix (Fin 2) (Fin 2) ℂ}
    (hU : Uᴴ * U = 1) (gate : Gate m) (ψ : QState m) :
    norm2 (applyGate U gate ψ) = norm2 ψ := by
  cases gate with
  | hGate k => exact norm2_applyEst Hmat_unitary k ψ
  | cpow k p => exact norm2_applyCtrlPow hU p k ψ
  | qftAdj => exact norm2_applyQftInv ψ

theorem norm2_applyGates {m : ℕ} {U : Matrix (Fin 2) (Fin 2) ℂ}
    (hU : Uᴴ * U = 1) (gs : List (Gate m)) (ψ : QState m) :
    norm2 (applyGates U gs ψ) = norm2 ψ := by
  induction gs generalizing ψ with
  | nil => rfl
  | cons gate gs ih =>
      have hstep : applyGates U (gate :: gs) ψ
          = applyGates U gs (applyGate U gate ψ) := rfl
      rw [hstep, ih, norm2_applyGate hU]

/-- **C9.** Starting from any unit-norm state, any sequence of the
gate applications of the circuit (Hadamards, controlled powers of a unitary,
adjoint QFT) keeps the state unit-normalized, and the marginal
distribution over the estimation wires is nonnegative and sums to 1. -/
theorem gates_preserve_norm (m : ℕ) (U : Matrix (Fin 2) (Fin 2) ℂ)
    (hU : Uᴴ * U = 1) (gs : List (Gate m)) (ψ : QState m)
    (hψ : norm2 ψ = 1) :
    norm2 (applyGates U gs ψ) = 1 ∧
      (∀ f, 0 ≤ probsEst (applyGates U gs ψ) f) ∧
      ∑ f : Fin m → Bool, probsEst (applyGates U gs ψ) f = 1 := by
  have h1 : norm2 (applyGates U gs ψ) = 1 := by
    rw [norm2_applyGates hU, hψ]
  refine ⟨h1, ?_, ?_⟩
  · intro f
    exact Finset.sum_nonneg fun s _ => Complex.normSq_nonneg _
  · rw [← h1]
    rfl

theorem id_unitary : (1 : Matrix (Fin 2) (Fin 2) ℂ)ᴴ * 1 = 1 := by
  rw [Matrix.conjTranspose_one, Matrix.one_mul]

theorem norm2_init_zero : norm2 (initState ![1, 0] : QState 0) = 1 := by
  rw [norm2]
  rw [Fintype.sum_unique]
  simp [initState, Fin.sum_univ_two]

/-- Witness for `gates_preserve_norm`: `m = 0`, `U = 1`, one adjoint-QFT
gate, system state `(1,0)`. -/
theorem gates_preserve_norm_witness :
    ((1 : Matrix (Fin 2) (Fin 2) ℂ)ᴴ * 1 = 1) ∧
      norm2 (initState ![1, 0] : QState 0) = 1 ∧
      (norm2 (applyGates 1 [Gate.qftAdj] (initState ![1, 0] : QState 0)) = 1 ∧
        (∀ f, 0 ≤ probsEst (applyGates 1 [Gate.qftAdj]
            (initState ![1, 0] : QState 0)) f) ∧
        ∑ f : Fin 0 → Bool, probsEst (applyGates 1 [Gate.qftAdj]
            (initState ![1, 0] : QState 0)) f = 1) :=
  ⟨id_unitary, norm2_init_zero,
    gates_preserve_norm 0 1 id_unitary [Gate.qftAdj] (initState ![1, 0])
      norm2_init_zero⟩
